import Mathlib

set_option autoImplicit false
set_option maxHeartbeats 1000000

/-!
Shallow embedding of the Dotcoin repository.

Sources embedded:
* `core/server.mjs`  — `DotcoinServer.addTransaction`, `DotcoinServer.addBlock`
* `core/client.mjs`  — `DotcoinClient.getBalance`, `DotcoinClient.createTransaction`,
  `DotcoinClient.mine`
* `core/common.mjs`  — `findNonce`, `verifySignature`

External collaborators (the hashing module `utils/utils.mjs`, the BIP32 key
derivation and signature library, and the base58 nonce encoding) are modelled
as parameters collected in a `Crypto` structure; per the spec they are
deterministic functions, and the spec's collaborator contract states that
`transactionHash` reads the logical transaction content (inputs, outputs,
signatures — computable both with and without the signature field) and
`blockHash` reads the block content (previous, root, nonce).

The ledger store (`database/database-read.mjs`, `database/database-write.mjs`)
is not part of the sources; it is modelled from the spec as a list-backed
document store keyed by address / transaction id / block id.
-/

/-- A UTXO record as described by the spec's data model:
`{address, amount, block: BlockId|null, spendingTx: TxId|null}`.  The
`spendingTx` field is called `txIn` in the client code. -/
structure Utxo where
  address : String
  amount : Int
  block : Option String
  txIn : Option String
deriving DecidableEq, Repr

/-- A transaction output `{address, amount}`. -/
structure TxOut where
  address : String
  amount : Int
deriving DecidableEq, Repr

/-- A transaction.  `_id` is the hash of the fully signed structure (spec:
`id : Hash`); `block` is `null` while the transaction is pooled. -/
structure Tx where
  _id : String
  utxoIns : List String
  utxoOuts : List TxOut
  signatures : List String
  block : Option String := none
deriving DecidableEq, Repr

/-- A block.  `_id` and `nonce` start out as placeholders (`null` in the
source) and are filled in by `findNonce` / `addBlock`. -/
structure Block where
  _id : String := ""
  previous : Option String
  root : String
  nonce : String := ""
deriving DecidableEq, Repr

/-- Server/client configuration: mining difficulty, transaction limit per
block (including coinbase) and the coinbase amount. -/
structure Config where
  difficulty : Nat
  limit : Nat
  amount : Int
deriving DecidableEq, Repr

/-- The external collaborators: hierarchical key derivation, signing and the
canonical hashing module.  All are deterministic functions per the spec. -/
structure Crypto where
  /-- `getReceiveKeys(mnemonic, account)` as `(privateKey, publicKey)`. -/
  getReceiveKeys : String → Nat → String × String
  /-- `getChangeKeys(mnemonic, account)` as `(privateKey, publicKey)`. -/
  getChangeKeys : String → Nat → String × String
  /-- `getChildKeys(key, index).publicKey` for an extended public key. -/
  getChildKeysPub : String → Nat → String
  /-- `getChildKeys(key, index).privateKey` for an extended private key. -/
  getChildKeysPriv : String → Nat → String
  /-- `signHash(hash, privateKey)`. -/
  signHash : String → String → String
  /-- `verifySignature(hash, publicKey, sig)`; the spec's collaborator
  contract states that it returns a boolean. -/
  verifySignature : String → String → String → Bool
  /-- `utils.getTransactionHash` applied to the transaction's logical content
  (inputs, outputs, signatures); per the spec it is computable both with and
  without the signature field. -/
  getTransactionHash : List String → List TxOut → List String → String
  /-- `utils.getMerkleRoot(orderedHashes)`. -/
  getMerkleRoot : List String → String
  /-- `utils.getBlockHash` applied to the block content (previous, root,
  nonce). -/
  getBlockHash : Option String → String → String → String
  /-- base58 encoding of the decimal digit string of a nonce counter, as in
  `findNonce`: a deterministic enumeration of nonce values. -/
  encodeNonce : Nat → String

/-- Modelled from the spec: the ledger store collaborator's persistent state —
UTXO records, transactions and blocks in insertion order. -/
structure Db where
  utxos : List Utxo
  txs : List Tx
  blocks : List Block
deriving DecidableEq, Repr

/-- Modelled from the spec: raw point lookup of the UTXO record stored at an
address (`getUtxo(address) -> UTXO|null`).  The client-side store
(`database-read.mjs`) returns the record together with its `txIn`
(spending-transaction) field: `getBalance` and `createTransaction` inspect
`utxo.txIn` on the records they receive. -/
def dbReadGetUtxo (db : Db) (address : String) : Option Utxo :=
  db.utxos.find? (fun u => u.address == address)

/-- Modelled from the spec: the validator-side `getUtxo` of
`database-write.mjs` (not in the sources).  Per spec §4.4 the validator's
lookup of an input UTXO fails when the record is "absent (already spent or
never existed)", so a record whose recorded spender is non-null is not
returned. -/
def dbWriteGetUtxo (db : Db) (address : String) : Option Utxo :=
  (dbReadGetUtxo db address).filter (fun u => u.txIn == none)

/-- Modelled from the spec: `spend(txId, addresses)` — marks each listed
UTXO's spender. -/
def dbSpendUtxos (db : Db) (txId : String) (addresses : List String) : Db :=
  { db with utxos := db.utxos.map (fun u =>
      if u.address ∈ addresses then { u with txIn := some txId } else u) }

/-- Modelled from the spec: the store's `addTransaction` — persists the
transaction and creates a UTXO record for each of its outputs (spec §3: a
UTXO is "created when a transaction containing it as an output is accepted
into the pool (block=null) or directly as a coinbase"). -/
def dbAddTransaction (db : Db) (tx : Tx) : Db :=
  { db with
    txs := db.txs ++ [tx],
    utxos := db.utxos ++ tx.utxoOuts.map (fun o =>
      { address := o.address, amount := o.amount, block := tx.block, txIn := none }) }

/-- Modelled from the spec: `confirmTransactions(blockId, txIds)` — marks each
referenced transaction confirmed with the block id. -/
def dbConfirmTransactions (db : Db) (blockId : String) (txIds : List String) : Db :=
  { db with txs := db.txs.map (fun t =>
      if t._id ∈ txIds then { t with block := some blockId } else t) }

/-- Modelled from the spec: `getTransaction(id)` point lookup. -/
def dbGetTransaction (db : Db) (txId : String) : Option Tx :=
  db.txs.find? (fun t => t._id == txId)

/-- Modelled from the spec: `getBlock(id)` point lookup. -/
def dbGetBlock (db : Db) (blockId : String) : Option Block :=
  db.blocks.find? (fun b => b._id == blockId)

/-- Modelled from the spec: `getTransactions(page, limit, sort, unconfirmed)`
paged listing; `sort = 1` is insertion order, `sort = -1` reversed;
`unconfirmed` keeps only transactions with `block == null`. -/
def dbGetTransactions (db : Db) (page limit : Nat) (sortAsc : Bool) (unconfirmed : Bool) : List Tx :=
  let base := if unconfirmed then db.txs.filter (fun t => t.block == none) else db.txs
  let sorted := if sortAsc then base else base.reverse
  (sorted.drop (page * limit)).take limit

/-- Modelled from the spec: `getBlocks(page, limit, sort)` paged listing. -/
def dbGetBlocks (db : Db) (page limit : Nat) (sortAsc : Bool) : List Block :=
  let sorted := if sortAsc then db.blocks else db.blocks.reverse
  (sorted.drop (page * limit)).take limit

/-- The JS `"1".repeat(difficulty)` target string of `addBlock` and
`findNonce`. -/
def difficultyTarget (difficulty : Nat) : String :=
  ⟨List.replicate difficulty '1'⟩

/-- JS `String.prototype.startsWith`, embedded on the character lists. -/
def strStartsWith (s p : String) : Bool :=
  p.data.isPrefixOf s.data

/-! ## `DotcoinServer.addTransaction` (core/server.mjs) -/

/-- The per-input loop of `addTransaction`: duplicate detection against the
`seenInputs` set, validator-side UTXO lookup, and positional signature
verification (`signatureIndex = utxoIns.indexOf(utxoIn)`). -/
def checkInputs (C : Crypto) (db : Db) (txHash : String) (allIns : List String)
    (sigs : List String) : List String → List String → Except String Unit
  | [], _ => .ok ()
  | utxoIn :: rest, seenInputs =>
    if utxoIn ∈ seenInputs then .error "Duplicate UTXO input detected"
    else
      match dbWriteGetUtxo db utxoIn with
      | none => .error "UTXO is not confirmed or does not exist"
      | some utxo =>
        let signatureIndex := allIns.indexOf utxoIn
        let signature := sigs.getD signatureIndex ""
        if C.verifySignature txHash utxo.address signature then
          checkInputs C db txHash allIns sigs rest (utxoIn :: seenInputs)
        else .error "Invalid signature for UTXO"

/-- The output loop of `addTransaction`: duplicate output addresses and
non-positive amounts are rejected (the JS `!utxoOut.amount ||
utxoOut.amount <= 0` is `amount ≤ 0` over the integers). -/
def checkOutputs : List TxOut → List String → Except String Unit
  | [], _ => .ok ()
  | utxoOut :: rest, addresses =>
    if utxoOut.address ∈ addresses then .error "Duplicate address found in outputs"
    else if utxoOut.amount ≤ 0 then .error "Invalid amount for address"
    else checkOutputs rest (utxoOut.address :: addresses)

/-- `totalInput` of `addTransaction`: sum of the looked-up input UTXO amounts
(a missing lookup contributes nothing, as in the source's `if (utxo)`). -/
def totalInput (db : Db) (utxoIns : List String) : Int :=
  utxoIns.foldl (fun acc a =>
    match dbWriteGetUtxo db a with
    | some utxo => acc + utxo.amount
    | none => acc) 0

/-- `totalOutput` of `addTransaction`: `utxoOuts.reduce((sum, o) => sum + o.amount, 0)`. -/
def totalOutput (utxoOuts : List TxOut) : Int :=
  utxoOuts.foldl (fun sum o => sum + o.amount) 0

/-- The success path of `addTransaction`: mark every consumed UTXO spent by
this transaction id, then persist the transaction with `block = null`. -/
def applyTransaction (db : Db) (txParams : Tx) : Db :=
  dbAddTransaction (dbSpendUtxos db txParams._id txParams.utxoIns) { txParams with block := none }

/-- `DotcoinServer.addTransaction`.  A `ValidationError` throw is an
`Except.error`; all mutations of the store happen after every check has
passed, so rejection returns no successor state (the ledger is unchanged). -/
def addTransaction (C : Crypto) (db : Db) (txParams : Tx) : Except String Db :=
  if txParams.utxoIns.length ≠ txParams.signatures.length then
    .error "Mismatch between number of UTXO inputs and signatures"
  else
    let txHash := C.getTransactionHash txParams.utxoIns txParams.utxoOuts []
    match checkInputs C db txHash txParams.utxoIns txParams.signatures txParams.utxoIns [] with
    | .error e => .error e
    | .ok _ =>
      match checkOutputs txParams.utxoOuts [] with
      | .error e => .error e
      | .ok _ =>
        if totalInput db txParams.utxoIns < totalOutput txParams.utxoOuts then
          .error "Insufficient input amount"
        else
          .ok (applyTransaction db txParams)

/-! ## `DotcoinServer.addBlock` (core/server.mjs) -/

/-- The transaction-resolution loop of `addBlock`: each referenced id must
resolve to a stored transaction. -/
def resolveTxs (db : Db) : List String → Except String (List Tx)
  | [] => .ok []
  | txId :: rest =>
    match dbGetTransaction db txId with
    | none => .error "Transaction does not exist"
    | some tx =>
      match resolveTxs db rest with
      | .error e => .error e
      | .ok txs => .ok (tx :: txs)

/-- The `block.previous` check of `addBlock`: a non-null `previous` must
reference a stored block whose id matches. -/
def checkPrevious (db : Db) : Option String → Except String Unit
  | none => .ok ()
  | some p =>
    match dbGetBlock db p with
    | none => .error "Previous block does not exist"
    | some previousBlock =>
      if previousBlock._id ≠ p then .error "Previous block ID mismatch" else .ok ()

/-- The recomputed Merkle root of `addBlock`:
`getMerkleRoot([coinbaseHash, ...txHashes])` over the resolved transactions
in the given order. -/
def recomputedRoot (C : Crypto) (coinbase : Tx) (fetchedTxs : List Tx) : String :=
  C.getMerkleRoot
    (C.getTransactionHash coinbase.utxoIns coinbase.utxoOuts coinbase.signatures ::
     fetchedTxs.map (fun tx => C.getTransactionHash tx.utxoIns tx.utxoOuts tx.signatures))

/-- The persistence step of `addBlock`: save the block under its recomputed
hash, mark the referenced transactions confirmed, and persist the coinbase as
confirmed. -/
def applyBlock (db : Db) (blockHash : String) (block : Block) (coinbase : Tx)
    (transactions : List String) : Db :=
  dbAddTransaction
    (dbConfirmTransactions { db with blocks := db.blocks ++ [{ block with _id := blockHash }] }
      blockHash transactions)
    { coinbase with block := some blockHash }

/-- `DotcoinServer.addBlock`: difficulty check on the recomputed block hash,
ancestor existence, transaction resolution, Merkle-root recomputation over
`[coinbaseHash, ...txHashes]`, coinbase shape check, then persistence. -/
def addBlock (C : Crypto) (cfg : Config) (db : Db) (block : Block) (coinbase : Tx)
    (transactions : List String) : Except String Db :=
  if strStartsWith (C.getBlockHash block.previous block.root block.nonce)
      (difficultyTarget cfg.difficulty) = false then
    .error "Block hash does not satisfy difficulty"
  else
    match checkPrevious db block.previous with
    | .error e => .error e
    | .ok _ =>
      match resolveTxs db transactions with
      | .error e => .error e
      | .ok fetchedTxs =>
        if block.root ≠ recomputedRoot C coinbase fetchedTxs then .error "Invalid Merkle root"
        else if 0 < coinbase.utxoIns.length ∨ coinbase.utxoOuts.length ≠ 1 ∨
            (coinbase.utxoOuts.headD { address := "", amount := 0 }).amount ≠ cfg.amount then
          .error "Invalid coinbase transaction"
        else
          .ok (applyBlock db (C.getBlockHash block.previous block.root block.nonce) block
            coinbase transactions)

/-! ## `core/common.mjs` -/

/-- `findNonce(block, difficulty)`: enumerate nonce counters `0,1,2,…`,
base58-encode each into the block's `nonce` field and recompute the block
hash until it starts with `"1".repeat(difficulty)`.  The JS loop is unbounded
(the spec calls the search unbounded and cancellable); the embedding adds a
fuel argument and returns `none` when the fuel is exhausted. -/
def findNonce (C : Crypto) (block : Block) (difficulty : Nat) : Nat → Nat → Option Block
  | 0, _ => none
  | fuel + 1, nonce =>
    let nonceStr := C.encodeNonce nonce
    let blockId := C.getBlockHash block.previous block.root nonceStr
    if strStartsWith blockId (difficultyTarget difficulty) then
      some { block with nonce := nonceStr, _id := blockId }
    else
      findNonce C block difficulty fuel (nonce + 1)

/-- `verifySignature(hash, publicKey, sig)` from `core/common.mjs`, embedded
with its external library calls as parameters: `decode` is the base58check
decoder (which raises on a string that is not valid base58check — modelled by
`none`), `fromExtendedKey` is the HDKey parser (raises on a malformed key),
and `verifyRaw` is the raw signature check on the parsed key.  A raised
library error propagates out of `verifySignature` as `Except.error`. -/
def verifySignatureE {K : Type} (decode : String → Option (List Nat))
    (fromExtendedKey : String → Option K) (verifyRaw : K → List Nat → List Nat → Bool)
    (hash publicKey sig : String) : Except String Bool :=
  match decode hash with
  | none => .error "base58 decode failed on hash"
  | some decodedHash =>
    match decode sig with
    | none => .error "base58 decode failed on signature"
    | some decodedSig =>
      match fromExtendedKey publicKey with
      | none => .error "malformed extended key"
      | some keyPair => .ok (verifyRaw keyPair decodedHash decodedSig)

/-! ## `DotcoinClient.getBalance` (core/client.mjs) -/

/-- The scanning loop of `getBalance`: at each child index derive the receive
and change addresses, fetch their UTXO records, stop when neither chain has a
record, otherwise add unspent confirmed amounts to `totalUsable` and unspent
unconfirmed amounts to `totalPending`.  Fueled: the JS loop runs until the
first empty index. -/
def getBalanceLoop (C : Crypto) (db : Db) (receiveParentKey changeParentKey : String) :
    Nat → Nat → Int → Int → Option (Int × Int)
  | 0, _, _, _ => none
  | fuel + 1, childIndex, totalUsable, totalPending =>
    let receiveAddress := C.getChildKeysPub receiveParentKey childIndex
    let changeAddress := C.getChildKeysPub changeParentKey childIndex
    let receiveUtxos := dbReadGetUtxo db receiveAddress
    let changeUtxos := dbReadGetUtxo db changeAddress
    if receiveUtxos.isNone && changeUtxos.isNone then
      some (totalUsable, totalPending)
    else
      let allUtxos := receiveUtxos.toList ++ changeUtxos.toList
      let totals := allUtxos.foldl (fun (acc : Int × Int) utxo =>
        if utxo.txIn.isSome then acc
        else if utxo.block.isSome then (acc.1 + utxo.amount, acc.2)
        else (acc.1, acc.2 + utxo.amount)) (totalUsable, totalPending)
      getBalanceLoop C db receiveParentKey changeParentKey fuel (childIndex + 1) totals.1 totals.2

/-- `DotcoinClient.getBalance`: returns `{usable, pending}` for the account
(the source re-derives the two parent keys on every iteration; they are
constant, so the embedding hoists them). -/
def getBalance (C : Crypto) (db : Db) (mnemonic : String) (account : Nat) (fuel : Nat) :
    Option (Int × Int) :=
  getBalanceLoop C db (C.getReceiveKeys mnemonic account).2 (C.getChangeKeys mnemonic account).2
    fuel 0 0 0

/-! ## `DotcoinClient.createTransaction` (core/client.mjs) -/

/-- An entry of the `selectedUtxos` list of `createTransaction`: the UTXO
together with the child index it was found at and whether it came from the
receive chain (`utxo.address === receiveAddress`) or the change chain. -/
structure SelUtxo where
  utxo : Utxo
  childIndex : Nat
  isReceive : Bool
deriving DecidableEq, Repr

/-- The inner `for (const utxo of allUtxos)` of the coin-selection loop: skip
spent and unconfirmed UTXOs, stop once the accumulated total covers the
requested amount, otherwise select the UTXO and record its address as an
input. -/
def pickAtIndex (receiveAddress : String) (amount : Int) (childIndex : Nat) :
    List Utxo → Int → List SelUtxo → List String → Int × List SelUtxo × List String
  | [], total, selectedUtxos, utxoIns => (total, selectedUtxos, utxoIns)
  | utxo :: rest, total, selectedUtxos, utxoIns =>
    if utxo.txIn.isSome then pickAtIndex receiveAddress amount childIndex rest total selectedUtxos utxoIns
    else if utxo.block.isNone then pickAtIndex receiveAddress amount childIndex rest total selectedUtxos utxoIns
    else if amount ≤ total then (total, selectedUtxos, utxoIns)
    else
      pickAtIndex receiveAddress amount childIndex rest (total + utxo.amount)
        (selectedUtxos ++ [{ utxo := utxo, childIndex := childIndex,
                             isReceive := utxo.address == receiveAddress }])
        (utxoIns ++ [utxo.address])

/-- The outer `while (total < amount)` coin-selection loop of
`createTransaction`: walk child indices over the receive and change chains in
lockstep, stopping early when an index past 0 has no UTXO record on either
chain.  Fueled. -/
def selectLoop (C : Crypto) (db : Db) (receiveParentKey changeParentKey : String) (amount : Int) :
    Nat → Nat → Int → List SelUtxo → List String → Option (Int × List SelUtxo × List String)
  | 0, _, _, _, _ => none
  | fuel + 1, childIndex, total, selectedUtxos, utxoIns =>
    if amount ≤ total then some (total, selectedUtxos, utxoIns)
    else
      let receiveAddress := C.getChildKeysPub receiveParentKey childIndex
      let changeAddress := C.getChildKeysPub changeParentKey childIndex
      let allUtxos := (dbReadGetUtxo db receiveAddress).toList ++ (dbReadGetUtxo db changeAddress).toList
      if allUtxos.isEmpty && childIndex != 0 then some (total, selectedUtxos, utxoIns)
      else
        let step := pickAtIndex receiveAddress amount childIndex allUtxos total selectedUtxos utxoIns
        selectLoop C db receiveParentKey changeParentKey amount fuel (childIndex + 1)
          step.1 step.2.1 step.2.2

/-- The next-unused-address scan shared by the change-address and
recipient-address loops of `createTransaction` and the reward-address loop of
`mine`: derive child addresses at indices `0,1,2,…` of the parent key and
return the first with no UTXO record in the store.  Fueled. -/
def firstUnusedAddress (C : Crypto) (db : Db) (parentKey : String) : Nat → Nat → Option String
  | 0, _ => none
  | fuel + 1, childIndex =>
    let derivedAddress := C.getChildKeysPub parentKey childIndex
    match dbReadGetUtxo db derivedAddress with
    | none => some derivedAddress
    | some _ => firstUnusedAddress C db parentKey fuel (childIndex + 1)

/-- The signing loop of `createTransaction`: for each selected UTXO, sign the
unsigned-transaction hash with the child private key of the chain
(receive/change) and index the UTXO came from. -/
def signAll (C : Crypto) (receivePriv changePriv : String) (txHash : String)
    (selectedUtxos : List SelUtxo) : List String :=
  selectedUtxos.map (fun s =>
    C.signHash txHash (C.getChildKeysPriv (if s.isReceive then receivePriv else changePriv) s.childIndex))

/-- The final assembly of `createTransaction`: hash the transaction without
signatures, sign per selected input, then compute `_id` as the hash of the
signed structure. -/
def buildSignedTx (C : Crypto) (receivePriv changePriv : String) (utxoIns : List String)
    (utxoOuts : List TxOut) (selectedUtxos : List SelUtxo) : Tx :=
  let txHash := C.getTransactionHash utxoIns utxoOuts []
  let signatures := signAll C receivePriv changePriv txHash selectedUtxos
  { _id := C.getTransactionHash utxoIns utxoOuts signatures,
    utxoIns := utxoIns, utxoOuts := utxoOuts, signatures := signatures, block := none }

/-- `DotcoinClient.createTransaction(account, address, amount)`: coin
selection over the account's receive/change chains, `ClientError` when the
confirmed unspent total cannot cover the amount, construction of the
recipient output (at the next unused child of the recipient's parent key) and
of the change output (at the next unused child of the sender's change chain)
when `change > 0`, then signing.  `none` means a fueled loop was cut off. -/
def createTransaction (C : Crypto) (db : Db) (mnemonic : String) (account : Nat)
    (address : String) (amount : Int) (fuel : Nat) : Option (Except String Tx) :=
  let receiveKeys := C.getReceiveKeys mnemonic account
  let changeKeys := C.getChangeKeys mnemonic account
  match selectLoop C db receiveKeys.2 changeKeys.2 amount fuel 0 0 [] [] with
  | none => none
  | some (total, selectedUtxos, utxoIns) =>
    if total < amount then some (.error "Insufficient funds")
    else
      let change := total - amount
      if change < 0 then some (.error "Invalid transaction amount")
      else if 0 < change then
        match firstUnusedAddress C db changeKeys.2 fuel 0 with
        | none => none
        | some changeAddressForOutput =>
          match firstUnusedAddress C db address fuel 0 with
          | none => none
          | some recipientAddress =>
            some (.ok (buildSignedTx C receiveKeys.1 changeKeys.1 utxoIns
              [{ address := recipientAddress, amount := amount },
               { address := changeAddressForOutput, amount := change }] selectedUtxos))
      else
        match firstUnusedAddress C db address fuel 0 with
        | none => none
        | some recipientAddress =>
          some (.ok (buildSignedTx C receiveKeys.1 changeKeys.1 utxoIns
            [{ address := recipientAddress, amount := amount }] selectedUtxos))

/-! ## `DotcoinClient.mine` (core/client.mjs) -/

/-- The result of `mine`: the sealed block, its coinbase, and the ids of the
pooled transactions the block confirms. -/
structure MineResult where
  block : Block
  coinbase : Tx
  transactions : List String
deriving DecidableEq, Repr

/-- `DotcoinClient.mine(account)`: pick the first unused receive child address
as reward destination, build the coinbase (no inputs, one output of the
configured amount, id = its own hash), fetch up to 100 pooled transactions
(`getTransactions(0, 100, 1, true)`), take the latest block as `previous`,
commit the Merkle root over the ids of `[coinbase, ...pool]`, and search for
a nonce. -/
def mine (C : Crypto) (cfg : Config) (db : Db) (mnemonic : String) (account : Nat)
    (fuel : Nat) : Option MineResult :=
  let parentKey := (C.getReceiveKeys mnemonic account).2
  match firstUnusedAddress C db parentKey fuel 0 with
  | none => none
  | some publicKey =>
    let coinbase : Tx :=
      { _id := C.getTransactionHash [] [{ address := publicKey, amount := cfg.amount }] [],
        utxoIns := [], utxoOuts := [{ address := publicKey, amount := cfg.amount }],
        signatures := [], block := none }
    let unconfirmedTxs := dbGetTransactions db 0 100 true true
    let transactionsToMine := coinbase :: unconfirmedTxs
    let lastBlocks := dbGetBlocks db 0 1 false
    let previous : Option String :=
      match lastBlocks with
      | lastBlock :: _ => some lastBlock._id
      | [] => none
    let txIds := transactionsToMine.map (fun tx => tx._id)
    let blockCandidate : Block :=
      { _id := "", previous := previous, root := C.getMerkleRoot txIds, nonce := "" }
    match findNonce C blockCandidate cfg.difficulty fuel 0 with
    | none => none
    | some minedBlock =>
      some { block := minedBlock, coinbase := coinbase,
             transactions := unconfirmedTxs.map (fun tx => tx._id) }

/-! ## Concrete instances used by witness and counterexample theorems

A small concrete instantiation of the external collaborators: child public
keys append one `'x'` per derivation step to the parent key (making
derivation injective per parent and keeping distinct parents' chains
disjoint), signatures always verify, and the hash functions are constant.
The claims' theorems are quantified over any `Crypto`; these instances only
serve to evaluate them on closed inputs. -/

/-- Witness child-key derivation: append `index` copies of `'x'`. -/
def cwChildPub (key : String) (index : Nat) : String :=
  ⟨key.data ++ List.replicate index 'x'⟩

/-- Witness collaborator instance. -/
def cw : Crypto :=
  { getReceiveKeys := fun _ _ => ("R", "r"),
    getChangeKeys := fun _ _ => ("C", "c"),
    getChildKeysPub := cwChildPub,
    getChildKeysPriv := fun key index => ⟨key.data ++ List.replicate index 'y'⟩,
    signHash := fun _ _ => "S",
    verifySignature := fun _ _ _ => true,
    getTransactionHash := fun _ _ _ => "H",
    getMerkleRoot := fun _ => "M",
    getBlockHash := fun _ _ _ => "11M",
    encodeNonce := fun n => toString n }

/-- Variant whose block hashes start with `"10"` instead of `"11"`. -/
def cw10 : Crypto := { cw with getBlockHash := fun _ _ _ => "10M" }

/-- A store holding one confirmed unspent UTXO at the first receive child
address of `cw`. -/
def dbw : Db :=
  { utxos := [{ address := "r", amount := 5, block := some "b", txIn := none }],
    txs := [], blocks := [] }

/-- The empty store. -/
def dbEmpty : Db := { utxos := [], txs := [], blocks := [] }

/-- The transaction `createTransaction cw dbw "m" 0 "p" 3 5` builds. -/
def txw : Tx :=
  { _id := "H", utxoIns := ["r"],
    utxoOuts := [{ address := "p", amount := 3 }, { address := "c", amount := 2 }],
    signatures := ["S"], block := none }

/-- The transaction `createTransaction cw dbEmpty "m" 0 "p" 0 2` builds for a
requested amount of `0`. -/
def txZ : Tx :=
  { _id := "H", utxoIns := [], utxoOuts := [{ address := "p", amount := 0 }],
    signatures := [], block := none }

/-- A store whose only UTXO is already spent (recorded spender `"t0"`). -/
def dbSpent : Db :=
  { utxos := [{ address := "a", amount := 5, block := some "b", txIn := some "t0" }],
    txs := [], blocks := [] }

/-- A store with one confirmed unspent UTXO at address `"a"`. -/
def dbOk : Db :=
  { utxos := [{ address := "a", amount := 5, block := some "b", txIn := none }],
    txs := [], blocks := [] }

/-- A transaction spending the UTXO at `"a"`. -/
def tx1 : Tx :=
  { _id := "i1", utxoIns := ["a"], utxoOuts := [{ address := "o", amount := 5 }],
    signatures := ["s"], block := none }

/-- A second, distinct transaction also spending the UTXO at `"a"`. -/
def tx2 : Tx :=
  { _id := "i2", utxoIns := ["a"], utxoOuts := [{ address := "o2", amount := 5 }],
    signatures := ["s2"], block := none }

/-- Configuration with difficulty 1 and a pool limit of 2. -/
def cfg7 : Config := { difficulty := 1, limit := 2, amount := 100 }

/-- Configuration with difficulty 2. -/
def cfg4 : Config := { difficulty := 2, limit := 2, amount := 100 }

/-- Two pooled (unconfirmed) transactions. -/
def t1 : Tx :=
  { _id := "t1", utxoIns := [], utxoOuts := [{ address := "q1", amount := 1 }],
    signatures := [], block := none }

/-- Second pooled transaction. -/
def t2 : Tx :=
  { _id := "t2", utxoIns := [], utxoOuts := [{ address := "q2", amount := 1 }],
    signatures := [], block := none }

/-- A store with two pooled transactions. -/
def db7 : Db := { utxos := [], txs := [t1, t2], blocks := [] }

/-- A well-formed coinbase for reward 100 under `cw`. -/
def cb7 : Tx :=
  { _id := "H", utxoIns := [], utxoOuts := [{ address := "a", amount := 100 }],
    signatures := [], block := none }

/-- A block candidate matching `cw`'s constant Merkle root. -/
def blk7 : Block := { _id := "", previous := none, root := "M", nonce := "" }

/-- The result of `mine cw cfg7 dbEmpty "m" 0 5`. -/
def mineResE : MineResult :=
  { block := { _id := "11M", previous := none, root := "M", nonce := "0" },
    coinbase := { _id := "H", utxoIns := [],
                  utxoOuts := [{ address := "r", amount := 100 }],
                  signatures := [], block := none },
    transactions := [] }

/-- Witness model of the external base58check decoder used by
`verifySignature`: a base58check string carries a 4-byte checksum after the
payload, so strings of fewer than 5 characters (such as the empty string)
cannot decode and make the library raise; other strings decode to their
character bytes in this model. -/
def b58decodeW : String → Option (List Nat) :=
  fun s => if s.length < 5 then none else some (s.data.map Char.toNat)

/-- Witness model of `HDKey.fromExtendedKey`: accepts every key string. -/
def parseKeyW : String → Option String := fun k => some k

/-- Witness model of the raw signature check. -/
def verifyRawW : String → List Nat → List Nat → Bool := fun _ _ _ => true

/-! ## Spec-side characterization of `getBalance` (claim C10)

These definitions follow the claim's words (sums over both chains scanned
from child index 0, stopping at the first index where neither chain has a
record), to be compared with the embedded `getBalance` loop. -/

/-- Spec-side: the UTXO records found at child index `i` on the receive and
change chains. -/
def chainUtxosAt (C : Crypto) (db : Db) (receiveParentKey changeParentKey : String)
    (i : Nat) : List Utxo :=
  (dbReadGetUtxo db (C.getChildKeysPub receiveParentKey i)).toList ++
  (dbReadGetUtxo db (C.getChildKeysPub changeParentKey i)).toList

/-- Spec-side: neither chain has a UTXO record at index `i`. -/
def noRecordAt (C : Crypto) (db : Db) (receiveParentKey changeParentKey : String)
    (i : Nat) : Bool :=
  (dbReadGetUtxo db (C.getChildKeysPub receiveParentKey i)).isNone &&
  (dbReadGetUtxo db (C.getChildKeysPub changeParentKey i)).isNone

/-- Sum of the amounts of a list of UTXOs. -/
def sumAmounts (l : List Utxo) : Int :=
  (l.map (fun u => u.amount)).sum

/-- Spec-side: summed amounts of the unspent, confirmed UTXOs at index `i`. -/
def usableAt (C : Crypto) (db : Db) (receiveParentKey changeParentKey : String)
    (i : Nat) : Int :=
  sumAmounts ((chainUtxosAt C db receiveParentKey changeParentKey i).filter
    (fun u => u.txIn.isNone && u.block.isSome))

/-- Spec-side: summed amounts of the unspent, unconfirmed UTXOs at index `i`. -/
def pendingAt (C : Crypto) (db : Db) (receiveParentKey changeParentKey : String)
    (i : Nat) : Int :=
  sumAmounts ((chainUtxosAt C db receiveParentKey changeParentKey i).filter
    (fun u => u.txIn.isNone && u.block.isNone))

/-! ## Coin-selection invariant (claim C2) -/

/-- Collision-freeness of child-address derivation across the sender's
receive and change chains, as provided by the hierarchical-key collaborator:
distinct (chain, index) pairs derive distinct addresses. -/
structure ChainsInjective (C : Crypto) (receiveParentKey changeParentKey : String) : Prop where
  rr : ∀ i j, C.getChildKeysPub receiveParentKey i = C.getChildKeysPub receiveParentKey j → i = j
  cc : ∀ i j, C.getChildKeysPub changeParentKey i = C.getChildKeysPub changeParentKey j → i = j
  rc : ∀ i j, C.getChildKeysPub receiveParentKey i ≠ C.getChildKeysPub changeParentKey j

/-- Invariant of the coin-selection accumulators of `createTransaction`:
every selected UTXO is the stored record at its address, unspent and
confirmed, and its address is the derived child of its recorded chain and
index below the scan bound; the input list is the selected addresses in
order, without duplicates; and the running total is the sum of the selected
amounts. -/
structure SelInv (C : Crypto) (db : Db) (receiveParentKey changeParentKey : String)
    (bound : Nat) (total : Int) (selectedUtxos : List SelUtxo)
    (utxoIns : List String) : Prop where
  ins_eq : utxoIns = selectedUtxos.map (fun s => s.utxo.address)
  good : ∀ s ∈ selectedUtxos,
    dbReadGetUtxo db s.utxo.address = some s.utxo ∧ s.utxo.txIn = none ∧
    s.utxo.block.isSome = true ∧
    s.utxo.address = (if s.isReceive then C.getChildKeysPub receiveParentKey s.childIndex
                      else C.getChildKeysPub changeParentKey s.childIndex)
  bounded : ∀ s ∈ selectedUtxos, s.childIndex < bound
  nodup : utxoIns.Nodup
  total_eq : total = (selectedUtxos.map (fun s => s.utxo.amount)).sum

/-! ## Helper lemmas -/

lemma find?_append_left {α : Type} (p : α → Bool) (l₁ l₂ : List α) (x : α)
    (h : l₁.find? p = some x) : (l₁ ++ l₂).find? p = some x := by
  rw [List.find?_append, h]; rfl

lemma find?_map_pres {α : Type} (p : α → Bool) (f : α → α) (l : List α)
    (hf : ∀ x, p (f x) = p x) : (l.map f).find? p = (l.find? p).map f := by
  rw [List.find?_map]
  have : p ∘ f = p := funext hf
  rw [this]

/-- Fields of the block produced by `findNonce`: `previous` and `root` are
those of the candidate, and `_id` is the recomputed hash of the sealed
content. -/
lemma findNonce_fields (C : Crypto) (block : Block) (difficulty : Nat) :
    ∀ fuel start b, findNonce C block difficulty fuel start = some b →
    b.previous = block.previous ∧ b.root = block.root ∧
    b._id = C.getBlockHash block.previous block.root b.nonce := by
  intro fuel
  induction fuel with
  | zero => intro start b h; simp [findNonce] at h
  | succ n ih =>
    intro start b h
    rw [findNonce] at h
    split at h
    · cases h; exact ⟨rfl, rfl, rfl⟩
    · exact ih _ _ h

/-- Unpacks a successful `addBlock` run into the facts its guards enforce. -/
lemma addBlock_ok_elim (C : Crypto) (cfg : Config) (db : Db) (block : Block) (coinbase : Tx)
    (transactions : List String) (db' : Db)
    (h : addBlock C cfg db block coinbase transactions = .ok db') :
    strStartsWith (C.getBlockHash block.previous block.root block.nonce)
      (difficultyTarget cfg.difficulty) = true
    ∧ ∃ fetchedTxs, resolveTxs db transactions = .ok fetchedTxs
      ∧ block.root = recomputedRoot C coinbase fetchedTxs
      ∧ coinbase.utxoIns.length = 0
      ∧ coinbase.utxoOuts.length = 1
      ∧ (coinbase.utxoOuts.headD { address := "", amount := 0 }).amount = cfg.amount
      ∧ db' = applyBlock db (C.getBlockHash block.previous block.root block.nonce) block
          coinbase transactions := by
  unfold addBlock at h
  split at h
  · exact absurd h (by simp)
  next hdiff =>
    split at h
    · exact absurd h (by simp)
    · split at h
      · exact absurd h (by simp)
      next fetchedTxs hres =>
        refine ⟨by simpa using hdiff, fetchedTxs, hres, ?_⟩
        split at h
        · exact absurd h (by simp)
        next hroot =>
          split at h
          · exact absurd h (by simp)
          next hcb =>
            push_neg at hroot hcb
            cases h
            exact ⟨hroot, by omega, hcb.2.1, hcb.2.2, rfl⟩

/-! ## Claim C4 -/

/-- C4: every block accepted by `addBlock` has a recomputed block hash that
starts with the literal character `'1'` repeated `difficulty` times; a block
whose recomputed hash lacks that prefix is rejected; and every block returned
by `findNonce` has an `_id` satisfying the same prefix predicate. -/
theorem difficulty_gate (C : Crypto) (cfg : Config) :
    (∀ db block coinbase transactions db',
       addBlock C cfg db block coinbase transactions = .ok db' →
       strStartsWith (C.getBlockHash block.previous block.root block.nonce)
         (difficultyTarget cfg.difficulty) = true)
    ∧ (∀ db block coinbase transactions,
       strStartsWith (C.getBlockHash block.previous block.root block.nonce)
         (difficultyTarget cfg.difficulty) = false →
       ∃ e, addBlock C cfg db block coinbase transactions = .error e)
    ∧ (∀ block difficulty fuel start b,
       findNonce C block difficulty fuel start = some b →
       strStartsWith b._id (difficultyTarget difficulty) = true) := by
  refine ⟨?_, ?_, ?_⟩
  · intro db block coinbase transactions db' h
    exact (addBlock_ok_elim C cfg db block coinbase transactions db' h).1
  · intro db block coinbase transactions hs
    exact ⟨_, by rw [addBlock, if_pos hs]⟩
  · intro block difficulty fuel
    induction fuel with
    | zero => intro start b h; simp [findNonce] at h
    | succ n ih =>
      intro start b h
      rw [findNonce] at h
      split at h
      next hpref => cases h; simpa using hpref
      next => exact ih _ _ h

/-- Witness for C4 at difficulty 2: the concrete accepted block's recomputed
hash (`"11M"`) carries the `"11"` prefix, and the same block data under a
collaborator whose hashes start `"10"` is rejected. -/
theorem difficulty_gate_witness :
    strStartsWith (cw.getBlockHash blk7.previous blk7.root blk7.nonce)
      (difficultyTarget cfg4.difficulty) = true
    ∧ ∃ e, addBlock cw10 cfg4 db7 blk7 cb7 ["t1", "t2"] = .error e :=
  ⟨(difficulty_gate cw cfg4).1 db7 blk7 cb7 ["t1", "t2"] _ rfl,
   (difficulty_gate cw10 cfg4).2.1 db7 blk7 cb7 ["t1", "t2"] rfl⟩

/-! ## Claim C6 -/

/-- C6: `addBlock` rejects any block whose coinbase has inputs, more or fewer
than one output, or an output amount different from the configured reward;
an accepted block's coinbase has exactly that shape; and the coinbase built
by `mine` has zero inputs and one output of the configured amount. -/
theorem coinbase_shape (C : Crypto) (cfg : Config) :
    (∀ db block coinbase transactions db',
       addBlock C cfg db block coinbase transactions = .ok db' →
       coinbase.utxoIns = [] ∧ coinbase.utxoOuts.length = 1 ∧
       (coinbase.utxoOuts.headD { address := "", amount := 0 }).amount = cfg.amount)
    ∧ (∀ db block coinbase transactions,
       (coinbase.utxoIns.length ≠ 0 ∨ coinbase.utxoOuts.length ≠ 1 ∨
        (coinbase.utxoOuts.headD { address := "", amount := 0 }).amount ≠ cfg.amount) →
       ∃ e, addBlock C cfg db block coinbase transactions = .error e)
    ∧ (∀ db mnemonic account fuel res,
       mine C cfg db mnemonic account fuel = some res →
       res.coinbase.utxoIns = [] ∧
       ∃ a, res.coinbase.utxoOuts = [{ address := a, amount := cfg.amount }]) := by
  refine ⟨?_, ?_, ?_⟩
  · intro db block coinbase transactions db' h
    obtain ⟨-, -, -, -, hlen0, hlen1, hamt, -⟩ := addBlock_ok_elim C cfg db block coinbase transactions db' h
    exact ⟨List.length_eq_zero.mp hlen0, hlen1, hamt⟩
  · intro db block coinbase transactions hdev
    cases hab : addBlock C cfg db block coinbase transactions with
    | error e => exact ⟨e, rfl⟩
    | ok db' =>
      obtain ⟨-, -, -, -, hlen0, hlen1, hamt, -⟩ := addBlock_ok_elim C cfg db block coinbase transactions db' hab
      rcases hdev with h | h | h
      · exact absurd hlen0 h
      · exact absurd hlen1 h
      · exact absurd hamt h
  · intro db mnemonic account fuel res h
    simp only [mine] at h
    split at h
    · exact absurd h (by simp)
    next pk hpk =>
      split at h
      · exact absurd h (by simp)
      next minedBlock hmb =>
        cases h
        exact ⟨rfl, pk, rfl⟩

/-- Witness for C6: the concrete accepted block's coinbase has no inputs, one
output, and the configured amount 100. -/
theorem coinbase_shape_witness :
    cb7.utxoIns = [] ∧ cb7.utxoOuts.length = 1 ∧
    (cb7.utxoOuts.headD { address := "", amount := 0 }).amount = cfg7.amount :=
  (coinbase_shape cw cfg7).1 db7 blk7 cb7 ["t1", "t2"] _ rfl

/-! ## Claim C3 -/

/-- C3: `addBlock` accepts a block only when the Merkle root recomputed from
the coinbase hash and the resolved referenced transactions' recomputed
hashes, in the given order, is exactly `block.root`, and rejects otherwise;
the block candidate built by `mine` carries a root computed over
`[coinbase, ...pooled transactions]` in that order (their ids; for pooled
transactions whose stored id is their hash, equivalently their hashes). -/
theorem merkle_root_commitment (C : Crypto) (cfg : Config) :
    (∀ db block coinbase transactions db',
       addBlock C cfg db block coinbase transactions = .ok db' →
       ∃ fetchedTxs, resolveTxs db transactions = .ok fetchedTxs ∧
         block.root = recomputedRoot C coinbase fetchedTxs)
    ∧ (∀ db block coinbase transactions fetchedTxs,
       resolveTxs db transactions = .ok fetchedTxs →
       block.root ≠ recomputedRoot C coinbase fetchedTxs →
       ∃ e, addBlock C cfg db block coinbase transactions = .error e)
    ∧ (∀ db mnemonic account fuel res,
       mine C cfg db mnemonic account fuel = some res →
       (∀ tx ∈ dbGetTransactions db 0 100 true true,
          tx._id = C.getTransactionHash tx.utxoIns tx.utxoOuts tx.signatures) →
       res.block.root = recomputedRoot C res.coinbase (dbGetTransactions db 0 100 true true)) := by
  refine ⟨?_, ?_, ?_⟩
  · intro db block coinbase transactions db' h
    obtain ⟨-, fetchedTxs, hres, hroot, -⟩ := addBlock_ok_elim C cfg db block coinbase transactions db' h
    exact ⟨fetchedTxs, hres, hroot⟩
  · intro db block coinbase transactions fetchedTxs hres hne
    cases hab : addBlock C cfg db block coinbase transactions with
    | error e => exact ⟨e, rfl⟩
    | ok db' =>
      obtain ⟨-, fetchedTxs', hres', hroot, -⟩ := addBlock_ok_elim C cfg db block coinbase transactions db' hab
      rw [hres] at hres'
      cases hres'
      exact absurd hroot hne
  · intro db mnemonic account fuel res h hid
    simp only [mine] at h
    split at h
    · exact absurd h (by simp)
    next pk hpk =>
      split at h
      · exact absurd h (by simp)
      next minedBlock hmb =>
        obtain ⟨-, hroot, -⟩ := findNonce_fields C _ cfg.difficulty fuel 0 minedBlock hmb
        cases h
        simp only [MineResult.block, MineResult.coinbase] at *
        rw [hroot]
        simp only [recomputedRoot, List.map_cons]
        have hmap : List.map (fun tx => tx._id) (dbGetTransactions db 0 100 true true)
            = List.map (fun tx => C.getTransactionHash tx.utxoIns tx.utxoOuts tx.signatures)
              (dbGetTransactions db 0 100 true true) :=
          List.map_congr_left (fun tx htx => hid tx htx)
        rw [hmap]

/-- Witness for C3: the concrete block mined by `mine cw cfg7 dbEmpty "m" 0 5`
commits the Merkle root over its coinbase and (empty) pool. -/
theorem merkle_root_commitment_witness :
    mineResE.block.root = recomputedRoot cw mineResE.coinbase (dbGetTransactions dbEmpty 0 100 true true) :=
  (merkle_root_commitment cw cfg7).2.2 dbEmpty "m" 0 5 mineResE rfl
    (by intro tx htx; simp [dbGetTransactions, dbEmpty] at htx)

/-! ## Claim C7 -/

/-- C7 (code bug): the configured transaction limit is not enforced.  With
`limit = 2`, `addBlock` accepts a block confirming 2 pooled transactions
plus the coinbase (3 > 2) — it never counts the referenced transactions
against the limit — and `mine` assembles a candidate carrying 2 pooled
transactions (more than `limit - 1`), because its pool fetch uses a
hard-coded page size of 100 instead of the configured limit. -/
theorem poolLimit_not_enforced :
    (∃ db', addBlock cw cfg7 db7 blk7 cb7 ["t1", "t2"] = .ok db')
    ∧ cfg7.limit < 2 + 1
    ∧ (∃ res, mine cw cfg7 db7 "m" 0 6 = some res ∧ res.transactions.length = 2)
    ∧ cfg7.limit - 1 < 2 :=
  ⟨⟨_, rfl⟩, by decide, ⟨_, rfl, rfl⟩, by decide⟩

/-! ## Claim C8 -/

/-- C8 counterexample: `verifySignature` does not return a boolean on every
input — on the non-decodable base58check string `""` the decode failure
propagates out as an error (a thrown exception in the source) instead of a
boolean result. -/
theorem verify_throws_on_malformed :
    verifySignatureE b58decodeW parseKeyW verifyRawW "" "pubkey" "sig55" =
      .error "base58 decode failed on hash" := rfl

/-- C8 amended: for every hash, public key and signature whose base58check
decoding succeeds and whose public key parses as an extended key,
`verifySignature` returns a boolean (the raw verification result); on
non-decodable input it propagates the library error instead. -/
theorem verify_total_on_decodable {K : Type} (decode : String → Option (List Nat))
    (fromExtendedKey : String → Option K) (verifyRaw : K → List Nat → List Nat → Bool)
    (hash publicKey sig : String) (dh ds : List Nat) (kp : K)
    (h1 : decode hash = some dh) (h2 : decode sig = some ds)
    (h3 : fromExtendedKey publicKey = some kp) :
    verifySignatureE decode fromExtendedKey verifyRaw hash publicKey sig =
      .ok (verifyRaw kp dh ds) := by
  simp [verifySignatureE, h1, h2, h3]

/-- Witness for the amended C8 on decodable concrete strings. -/
theorem verify_total_on_decodable_witness :
    verifySignatureE b58decodeW parseKeyW verifyRawW "hash5" "pub" "sig55" = .ok true :=
  verify_total_on_decodable b58decodeW parseKeyW verifyRawW "hash5" "pub" "sig55" _ _ _ rfl rfl rfl

/-! ## Claim C9 -/

/-- Characterization of the next-unused-address scan: a returned address has
no UTXO record, is the derived child at some index at or past the start, and
every earlier scanned index had a record. -/
lemma firstUnusedAddress_spec (C : Crypto) (db : Db) (parentKey : String) :
    ∀ fuel start a, firstUnusedAddress C db parentKey fuel start = some a →
    dbReadGetUtxo db a = none ∧ ∃ i, start ≤ i ∧ a = C.getChildKeysPub parentKey i ∧
      ∀ j, start ≤ j → j < i → dbReadGetUtxo db (C.getChildKeysPub parentKey j) ≠ none := by
  intro fuel
  induction fuel with
  | zero => intro start a h; simp [firstUnusedAddress] at h
  | succ n ih =>
    intro start a h
    rw [firstUnusedAddress] at h
    cases hu : dbReadGetUtxo db (C.getChildKeysPub parentKey start) with
    | none =>
      rw [hu] at h
      cases h
      exact ⟨hu, start, le_refl _, rfl, fun j h1 h2 => absurd h2 (by omega)⟩
    | some u =>
      rw [hu] at h
      obtain ⟨hnone, i, hle, heq, hprev⟩ := ih (start + 1) a h
      refine ⟨hnone, i, by omega, heq, ?_⟩
      intro j h1 h2
      rcases Nat.eq_or_lt_of_le h1 with rfl | hlt
      · rw [hu]; simp
      · exact hprev j (by omega) h2

/-- C9: the next-unused-address scans (shared by the recipient and change
loops of `createTransaction` and the reward loop of `mine`) return the
derived address of the first child index with no UTXO record; consequently
the output addresses of a built transaction and of a mined coinbase are
never addresses already present as UTXO keys. -/
theorem one_time_address_selection (C : Crypto) (db : Db) :
    (∀ parentKey fuel a, firstUnusedAddress C db parentKey fuel 0 = some a →
       dbReadGetUtxo db a = none ∧
       ∃ i, a = C.getChildKeysPub parentKey i ∧
         ∀ j < i, dbReadGetUtxo db (C.getChildKeysPub parentKey j) ≠ none)
    ∧ (∀ mnemonic account address amount fuel tx,
       createTransaction C db mnemonic account address amount fuel = some (.ok tx) →
       ∀ o ∈ tx.utxoOuts, dbReadGetUtxo db o.address = none)
    ∧ (∀ cfg mnemonic account fuel res,
       mine C cfg db mnemonic account fuel = some res →
       ∀ o ∈ res.coinbase.utxoOuts, dbReadGetUtxo db o.address = none) := by
  refine ⟨?_, ?_, ?_⟩
  · intro parentKey fuel a h
    obtain ⟨hnone, i, -, heq, hprev⟩ := firstUnusedAddress_spec C db parentKey fuel 0 a h
    exact ⟨hnone, i, heq, fun j hj => hprev j (Nat.zero_le j) hj⟩
  · intro mnemonic account address amount fuel tx h
    simp only [createTransaction] at h
    split at h
    · exact absurd h (by simp)
    next total selectedUtxos utxoIns hsel =>
      split at h
      · exact absurd h (by simp)
      · split at h
        · exact absurd h (by simp)
        · split at h
          next hchange =>
            split at h
            · exact absurd h (by simp)
            next ca hca =>
              split at h
              · exact absurd h (by simp)
              next ra hra =>
                cases h
                intro o ho
                simp only [buildSignedTx, List.mem_cons, List.mem_singleton] at ho
                rcases ho with rfl | rfl | hfalse
                · exact (firstUnusedAddress_spec C db address fuel 0 ra hra).1
                · exact (firstUnusedAddress_spec C db _ fuel 0 ca hca).1
                · cases hfalse
          next hchange =>
            split at h
            · exact absurd h (by simp)
            next ra hra =>
              cases h
              intro o ho
              simp only [buildSignedTx, List.mem_singleton] at ho
              subst ho
              exact (firstUnusedAddress_spec C db address fuel 0 ra hra).1
  · intro cfg mnemonic account fuel res h
    simp only [mine] at h
    split at h
    · exact absurd h (by simp)
    next pk hpk =>
      split at h
      · exact absurd h (by simp)
      next minedBlock hmb =>
        cases h
        intro o ho
        simp only [List.mem_singleton] at ho
        subst ho
        exact (firstUnusedAddress_spec C db _ fuel 0 pk hpk).1

/-- Witness for C9 at a concrete scan: the first unused child of parent key
`"p"` in the store `dbw` is `"p"` itself, and it has no UTXO record. -/
theorem one_time_address_selection_witness :
    dbReadGetUtxo dbw "p" = none ∧
    ∃ i, "p" = cw.getChildKeysPub "p" i ∧
      ∀ j < i, dbReadGetUtxo dbw (cw.getChildKeysPub "p" j) ≠ none :=
  (one_time_address_selection cw dbw).1 "p" 2 "p" rfl

/-! ## `addTransaction` lemmas (claims C1, C5) -/

/-- If any input's validator-side lookup yields nothing, the input loop (and
hence `addTransaction`) errors. -/
lemma checkInputs_error_of_missing (C : Crypto) (db : Db) (txHash : String)
    (allIns sigs : List String) :
    ∀ rem seen a, a ∈ rem → dbWriteGetUtxo db a = none →
    ∃ e, checkInputs C db txHash allIns sigs rem seen = .error e := by
  intro rem
  induction rem with
  | nil => intro seen a ha; cases ha
  | cons b rest ih =>
    intro seen a ha hnone
    by_cases hb : b ∈ seen
    · exact ⟨"Duplicate UTXO input detected", by simp [checkInputs, hb]⟩
    · cases hu : dbWriteGetUtxo db b with
      | none => exact ⟨"UTXO is not confirmed or does not exist", by simp [checkInputs, hb, hu]⟩
      | some u =>
        rcases List.mem_cons.mp ha with rfl | ha'
        · simp [hu] at hnone
        · cases hv : C.verifySignature txHash u.address (sigs.getD (allIns.indexOf b) "") with
          | false =>
            refine ⟨"Invalid signature for UTXO", ?_⟩
            simp only [checkInputs, if_neg hb, hu]
            rw [hv]
            simp
          | true =>
            obtain ⟨e, he⟩ := ih (b :: seen) a ha' hnone
            refine ⟨e, ?_⟩
            simp only [checkInputs, if_neg hb, hu]
            rw [hv]
            simpa using he

/-- A successful input loop looked every input up successfully. -/
lemma checkInputs_ok_lookup (C : Crypto) (db : Db) (txHash : String) (allIns sigs : List String) :
    ∀ rem seen, checkInputs C db txHash allIns sigs rem seen = .ok () →
    ∀ a ∈ rem, ∃ u, dbWriteGetUtxo db a = some u := by
  intro rem
  induction rem with
  | nil => intro seen h a ha; cases ha
  | cons b rest ih =>
    intro seen h a ha
    by_cases hb : b ∈ seen
    · simp [checkInputs, hb] at h
    · cases hu : dbWriteGetUtxo db b with
      | none => simp [checkInputs, hb, hu] at h
      | some u =>
        simp only [checkInputs, if_neg hb, hu] at h
        cases hv : C.verifySignature txHash u.address (sigs.getD (allIns.indexOf b) "") with
        | false => rw [hv] at h; simp at h
        | true =>
          rw [hv] at h
          simp only [if_true] at h
          rcases List.mem_cons.mp ha with rfl | ha'
          · exact ⟨u, hu⟩
          · exact ih (b :: seen) (by simpa using h) a ha'

/-- Unpacks a successful `addTransaction` run into the facts its guards
enforce and the exact successor state. -/
lemma addTransaction_ok_elim (C : Crypto) (db : Db) (tx : Tx) (db' : Db)
    (h : addTransaction C db tx = .ok db') :
    tx.utxoIns.length = tx.signatures.length
    ∧ checkInputs C db (C.getTransactionHash tx.utxoIns tx.utxoOuts []) tx.utxoIns
        tx.signatures tx.utxoIns [] = .ok ()
    ∧ checkOutputs tx.utxoOuts [] = .ok ()
    ∧ totalOutput tx.utxoOuts ≤ totalInput db tx.utxoIns
    ∧ db' = applyTransaction db tx := by
  simp only [addTransaction] at h
  split at h
  · exact absurd h (by simp)
  next hlen =>
    split at h
    · exact absurd h (by simp)
    next u hci =>
      split at h
      · exact absurd h (by simp)
      next u2 hco =>
        split at h
        · exact absurd h (by simp)
        next htot =>
          cases h
          cases u
          cases u2
          exact ⟨by omega, hci, hco, by omega, rfl⟩

/-- If some input of a transaction has no (unspent) UTXO record,
`addTransaction` rejects it. -/
lemma addTransaction_error_of_missing (C : Crypto) (db : Db) (tx : Tx) (a : String)
    (ha : a ∈ tx.utxoIns) (hw : dbWriteGetUtxo db a = none) :
    ∃ e, addTransaction C db tx = .error e := by
  by_cases hlen : tx.utxoIns.length ≠ tx.signatures.length
  · exact ⟨"Mismatch between number of UTXO inputs and signatures",
      by simp only [addTransaction, if_pos hlen]⟩
  · obtain ⟨e, he⟩ := checkInputs_error_of_missing C db
      (C.getTransactionHash tx.utxoIns tx.utxoOuts []) tx.utxoIns tx.signatures
      tx.utxoIns [] a ha hw
    exact ⟨e, by simp only [addTransaction, if_neg hlen, he]⟩

/-- After `applyTransaction`, every consumed input address is recorded as
spent, so the validator-side lookup returns nothing for it. -/
lemma applyTransaction_spends (db : Db) (tx : Tx) (a : String) (u : Utxo)
    (ha : a ∈ tx.utxoIns) (hu : dbReadGetUtxo db a = some u) :
    dbWriteGetUtxo (applyTransaction db tx) a = none := by
  have haddr : u.address = a := by
    have := List.find?_some hu
    simpa using this
  have hpres : ∀ x : Utxo,
      ((if x.address ∈ tx.utxoIns then { x with txIn := some tx._id } else x).address == a) =
      (x.address == a) := by
    intro x
    by_cases hx : x.address ∈ tx.utxoIns <;> simp [hx]
  have hfind : (applyTransaction db tx).utxos.find? (fun x => x.address == a) =
      some { u with txIn := some tx._id } := by
    show ((db.utxos.map (fun x => if x.address ∈ tx.utxoIns then { x with txIn := some tx._id } else x)) ++
        _).find? (fun x => x.address == a) = _
    apply find?_append_left
    rw [find?_map_pres _ _ _ hpres]
    rw [dbReadGetUtxo] at hu
    rw [hu]
    simp only [Option.map_some']
    rw [if_pos (haddr ▸ ha)]
  rw [dbWriteGetUtxo, dbReadGetUtxo, hfind]
  rfl

/-- C1: a transaction that references, as an input, a UTXO that is absent
from the store or already spent (recorded spender non-null) is rejected by
`addTransaction` with a `ValidationError` and no successor state; and once a
transaction consuming some UTXO is accepted, any further transaction
referencing the same UTXO as an input is rejected — no UTXO is consumed by
two distinct accepted transactions. -/
theorem double_spend_rejected (C : Crypto) :
    (∀ (db : Db) (tx : Tx) (a : String), a ∈ tx.utxoIns →
       (dbReadGetUtxo db a = none ∨ ∃ u, dbReadGetUtxo db a = some u ∧ u.txIn ≠ none) →
       ∃ e, addTransaction C db tx = .error e)
    ∧ (∀ (db db' : Db) (tx tx' : Tx) (a : String),
       addTransaction C db tx = .ok db' →
       a ∈ tx.utxoIns → a ∈ tx'.utxoIns →
       ∃ e, addTransaction C db' tx' = .error e) := by
  constructor
  · intro db tx a ha hmiss
    have hw : dbWriteGetUtxo db a = none := by
      rcases hmiss with hnone | ⟨u, hu, hspent⟩
      · rw [dbWriteGetUtxo, hnone]; rfl
      · rw [dbWriteGetUtxo, hu]
        simp [Option.filter, hspent]
    exact addTransaction_error_of_missing C db tx a ha hw
  · intro db db' tx tx' a hok ha ha'
    obtain ⟨-, hci, -, -, hdb'⟩ := addTransaction_ok_elim C db tx db' hok
    obtain ⟨u, hu⟩ := checkInputs_ok_lookup C db _ tx.utxoIns tx.signatures tx.utxoIns [] hci a ha
    have hread : dbReadGetUtxo db a = some u := by
      rw [dbWriteGetUtxo] at hu
      cases hr : dbReadGetUtxo db a with
      | none => rw [hr] at hu; cases hu
      | some v =>
        rw [hr] at hu
        cases hfil : (v.txIn == none) with
        | false => simp [Option.filter, hfil] at hu
        | true => simp [Option.filter, hfil] at hu; rw [hu]
    subst hdb'
    exact addTransaction_error_of_missing C _ tx' a ha'
      (applyTransaction_spends db tx a u ha hread)

/-- Witness for C1: spending the already-spent UTXO of `dbSpent` is rejected,
and after `tx1` is accepted on `dbOk` (consuming the UTXO at `"a"`), the
distinct transaction `tx2` referencing `"a"` is rejected. -/
theorem double_spend_rejected_witness :
    (∃ e, addTransaction cw dbSpent tx1 = .error e)
    ∧ (∃ e, addTransaction cw (applyTransaction dbOk tx1) tx2 = .error e) :=
  ⟨(double_spend_rejected cw).1 dbSpent tx1 "a" (by decide)
      (Or.inr ⟨{ address := "a", amount := 5, block := some "b", txIn := some "t0" }, rfl, by decide⟩),
   (double_spend_rejected cw).2 dbOk (applyTransaction dbOk tx1) tx1 tx2 "a" rfl (by decide) (by decide)⟩

/-! ## Claim C5 -/

/-- C5: once the structural and signature checks pass, `addTransaction`
rejects exactly when the summed input amounts fall strictly below the summed
output amounts; otherwise (in particular whenever inputs strictly exceed
outputs) it accepts, and the UTXO records it creates are exactly the
transaction's outputs — the surplus is assigned to no recipient. -/
theorem insufficient_inputs_gate (C : Crypto) (db : Db) (tx : Tx)
    (hlen : tx.utxoIns.length = tx.signatures.length)
    (hin : checkInputs C db (C.getTransactionHash tx.utxoIns tx.utxoOuts []) tx.utxoIns
      tx.signatures tx.utxoIns [] = .ok ())
    (hout : checkOutputs tx.utxoOuts [] = .ok ()) :
    ((∃ e, addTransaction C db tx = .error e) ↔
      totalInput db tx.utxoIns < totalOutput tx.utxoOuts)
    ∧ (totalOutput tx.utxoOuts ≤ totalInput db tx.utxoIns →
       addTransaction C db tx = .ok (applyTransaction db tx))
    ∧ (applyTransaction db tx).utxos =
        (dbSpendUtxos db tx._id tx.utxoIns).utxos ++ tx.utxoOuts.map (fun o =>
          { address := o.address, amount := o.amount, block := none, txIn := none }) := by
  have hstep : addTransaction C db tx =
      if totalInput db tx.utxoIns < totalOutput tx.utxoOuts then
        .error "Insufficient input amount"
      else .ok (applyTransaction db tx) := by
    simp only [addTransaction, if_neg (by omega : ¬tx.utxoIns.length ≠ tx.signatures.length),
      hin, hout]
  refine ⟨?_, ?_, rfl⟩
  · constructor
    · rintro ⟨e, he⟩
      by_contra hnot
      rw [hstep, if_neg hnot] at he
      cases he
    · intro hlt
      exact ⟨_, by rw [hstep, if_pos hlt]⟩
  · intro hge
    rw [hstep, if_neg (not_lt.mpr hge)]

/-- Witness for C5 at a concrete accepted transaction. -/
theorem insufficient_inputs_gate_witness :
    ((∃ e, addTransaction cw dbOk tx1 = .error e) ↔
      totalInput dbOk tx1.utxoIns < totalOutput tx1.utxoOuts)
    ∧ (totalOutput tx1.utxoOuts ≤ totalInput dbOk tx1.utxoIns →
       addTransaction cw dbOk tx1 = .ok (applyTransaction dbOk tx1))
    ∧ (applyTransaction dbOk tx1).utxos =
        (dbSpendUtxos dbOk tx1._id tx1.utxoIns).utxos ++ tx1.utxoOuts.map (fun o =>
          { address := o.address, amount := o.amount, block := none, txIn := none }) :=
  insufficient_inputs_gate cw dbOk tx1 rfl rfl rfl

/-! ## Claim C10 -/

/-- The accumulator fold of one `getBalance` iteration adds exactly the
unspent confirmed amounts to the usable total and the unspent unconfirmed
amounts to the pending total. -/
lemma balance_fold (l : List Utxo) : ∀ (a b : Int),
    l.foldl (fun (acc : Int × Int) utxo =>
      if utxo.txIn.isSome then acc
      else if utxo.block.isSome then (acc.1 + utxo.amount, acc.2)
      else (acc.1, acc.2 + utxo.amount)) (a, b) =
    (a + sumAmounts (l.filter (fun u => u.txIn.isNone && u.block.isSome)),
     b + sumAmounts (l.filter (fun u => u.txIn.isNone && u.block.isNone))) := by
  induction l with
  | nil => intro a b; simp [sumAmounts]
  | cons u rest ih =>
    intro a b
    cases htx : u.txIn with
    | some t => simp [htx, ih, sumAmounts]
    | none =>
      cases hbl : u.block with
      | some bl => simp [htx, hbl, ih, sumAmounts, add_assoc]
      | none => simp [htx, hbl, ih, sumAmounts, add_assoc]

/-- Unfolded characterization of the `getBalance` scanning loop. -/
lemma getBalanceLoop_spec (C : Crypto) (db : Db) (rK cK : String) :
    ∀ fuel i a b u p,
    getBalanceLoop C db rK cK fuel i a b = some (u, p) →
    ∃ n, i ≤ n ∧ noRecordAt C db rK cK n = true ∧
      (∀ j, i ≤ j → j < n → noRecordAt C db rK cK j = false) ∧
      u = a + ∑ j in Finset.Ico i n, usableAt C db rK cK j ∧
      p = b + ∑ j in Finset.Ico i n, pendingAt C db rK cK j := by
  intro fuel
  induction fuel with
  | zero => intro i a b u p h; simp [getBalanceLoop] at h
  | succ m ih =>
    intro i a b u p h
    simp only [getBalanceLoop] at h
    by_cases hstop : ((dbReadGetUtxo db (C.getChildKeysPub rK i)).isNone &&
        (dbReadGetUtxo db (C.getChildKeysPub cK i)).isNone) = true
    · rw [if_pos hstop] at h
      cases h
      refine ⟨i, le_refl _, hstop, fun j h1 h2 => absurd h2 (by omega), by simp, by simp⟩
    · rw [if_neg hstop] at h
      rw [balance_fold] at h
      obtain ⟨n, hin, hstopn, hprev, hu, hp⟩ := ih (i + 1) _ _ u p h
      refine ⟨n, by omega, hstopn, ?_, ?_, ?_⟩
      · intro j h1 h2
        rcases Nat.eq_or_lt_of_le h1 with rfl | hlt
        · exact Bool.eq_false_iff.mpr hstop
        · exact hprev j (by omega) h2
      · rw [hu, Finset.sum_eq_sum_Ico_succ_bot (by omega : i < n)]
        show _ = a + (usableAt C db rK cK i + _)
        rw [← add_assoc]
        rfl
      · rw [hp, Finset.sum_eq_sum_Ico_succ_bot (by omega : i < n)]
        show _ = b + (pendingAt C db rK cK i + _)
        rw [← add_assoc]
        rfl

/-- C10: `getBalance` returns `{usable, pending}` where `usable` sums the
amounts of unspent (`txIn` null) confirmed (`block` non-null) UTXOs and
`pending` sums the amounts of unspent unconfirmed UTXOs, over both the
receive and change chains scanned from child index 0 up to the first index
where neither chain has a UTXO record; spent UTXOs count toward neither. -/
theorem getBalance_sums (C : Crypto) (db : Db) (mnemonic : String) (account fuel : Nat)
    (usable pending : Int)
    (h : getBalance C db mnemonic account fuel = some (usable, pending)) :
    ∃ n, noRecordAt C db (C.getReceiveKeys mnemonic account).2
          (C.getChangeKeys mnemonic account).2 n = true
      ∧ (∀ j < n, noRecordAt C db (C.getReceiveKeys mnemonic account).2
          (C.getChangeKeys mnemonic account).2 j = false)
      ∧ usable = ∑ j in Finset.range n, usableAt C db
          (C.getReceiveKeys mnemonic account).2 (C.getChangeKeys mnemonic account).2 j
      ∧ pending = ∑ j in Finset.range n, pendingAt C db
          (C.getReceiveKeys mnemonic account).2 (C.getChangeKeys mnemonic account).2 j := by
  obtain ⟨n, -, hstopn, hprev, hu, hp⟩ := getBalanceLoop_spec C db
    (C.getReceiveKeys mnemonic account).2 (C.getChangeKeys mnemonic account).2
    fuel 0 0 0 usable pending h
  refine ⟨n, hstopn, fun j hj => hprev j (Nat.zero_le j) hj, ?_, ?_⟩
  · rw [hu, Finset.range_eq_Ico]; simp
  · rw [hp, Finset.range_eq_Ico]; simp

/-- Witness for C10: the concrete balance of `dbw` (one confirmed unspent
UTXO of amount 5) is usable 5, pending 0, matching the spec-side sums. -/
theorem getBalance_sums_witness :
    ∃ n, noRecordAt cw dbw (cw.getReceiveKeys "m" 0).2 (cw.getChangeKeys "m" 0).2 n = true
      ∧ (∀ j < n, noRecordAt cw dbw (cw.getReceiveKeys "m" 0).2 (cw.getChangeKeys "m" 0).2 j = false)
      ∧ (5 : Int) = ∑ j in Finset.range n, usableAt cw dbw
          (cw.getReceiveKeys "m" 0).2 (cw.getChangeKeys "m" 0).2 j
      ∧ (0 : Int) = ∑ j in Finset.range n, pendingAt cw dbw
          (cw.getReceiveKeys "m" 0).2 (cw.getChangeKeys "m" 0).2 j :=
  getBalance_sums cw dbw "m" 0 3 5 0 rfl

/-! ## Claim C2: coin-selection lemmas -/

/-- A stored record found at an address carries that address and is found
again when looked up by its own address field. -/
lemma dbRead_self (db : Db) (a : String) (u : Utxo) (h : dbReadGetUtxo db a = some u) :
    u.address = a ∧ dbReadGetUtxo db u.address = some u := by
  have ha : u.address = a := by simpa using List.find?_some h
  exact ⟨ha, by rw [ha]; exact h⟩

/-- An unspent record visible to the client lookup is visible to the
validator lookup. -/
lemma dbWrite_of_read (db : Db) (a : String) (u : Utxo)
    (h : dbReadGetUtxo db a = some u) (hun : u.txIn = none) :
    dbWriteGetUtxo db a = some u := by
  rw [dbWriteGetUtxo, h]
  simp [Option.filter, hun]

/-- Elements of a lookup's `toList` are stored records at that address. -/
lemma mem_lookup_toList (db : Db) (a : String) (u : Utxo)
    (h : u ∈ (dbReadGetUtxo db a).toList) :
    dbReadGetUtxo db u.address = some u ∧ u.address = a := by
  cases hr : dbReadGetUtxo db a with
  | none => rw [hr] at h; cases h
  | some v =>
    rw [hr] at h
    simp [Option.toList] at h
    subst h
    obtain ⟨ha, hself⟩ := dbRead_self db a u hr
    exact ⟨hself, ha⟩

/-- The selection invariant is monotone in the scan bound. -/
lemma SelInv.mono {C : Crypto} {db : Db} {rK cK : String} {b1 b2 : Nat} {total : Int}
    {sel : List SelUtxo} {ins : List String}
    (h : SelInv C db rK cK b1 total sel ins) (hb : b1 ≤ b2) :
    SelInv C db rK cK b2 total sel ins :=
  { ins_eq := h.ins_eq, good := h.good,
    bounded := fun s hs => lt_of_lt_of_le (h.bounded s hs) hb,
    nodup := h.nodup, total_eq := h.total_eq }

/-- The inner selection pass at one child index preserves the selection
invariant (with the bound one past the current index). -/
lemma pickAtIndex_inv (C : Crypto) (db : Db) (rK cK : String)
    (hinj : ChainsInjective C rK cK) (amount : Int) (idx : Nat) :
    ∀ cands total sel ins,
    SelInv C db rK cK (idx + 1) total sel ins →
    (∀ u ∈ cands, dbReadGetUtxo db u.address = some u) →
    (∀ u ∈ cands, u.address = C.getChildKeysPub rK idx ∨ u.address = C.getChildKeysPub cK idx) →
    (∀ u ∈ cands, u.address ∉ ins) →
    (cands.map (fun u => u.address)).Nodup →
    SelInv C db rK cK (idx + 1)
      (pickAtIndex (C.getChildKeysPub rK idx) amount idx cands total sel ins).1
      (pickAtIndex (C.getChildKeysPub rK idx) amount idx cands total sel ins).2.1
      (pickAtIndex (C.getChildKeysPub rK idx) amount idx cands total sel ins).2.2 := by
  intro cands
  induction cands with
  | nil => intro total sel ins inv _ _ _ _; simpa [pickAtIndex] using inv
  | cons u rest ih =>
    intro total sel ins inv hc1 hc2 hc3 hc4
    have hc1' := fun v hv => hc1 v (List.mem_cons_of_mem u hv)
    have hc2' := fun v hv => hc2 v (List.mem_cons_of_mem u hv)
    have hc4' : (rest.map (fun v => v.address)).Nodup := by
      simpa using (List.nodup_cons.mp (by simpa using hc4)).2
    by_cases h1 : u.txIn.isSome = true
    · simp only [pickAtIndex, if_pos h1]
      exact ih total sel ins inv hc1' hc2' (fun v hv => hc3 v (List.mem_cons_of_mem u hv)) hc4'
    · by_cases h2 : u.block.isNone = true
      · simp only [pickAtIndex, if_neg h1, if_pos h2]
        exact ih total sel ins inv hc1' hc2' (fun v hv => hc3 v (List.mem_cons_of_mem u hv)) hc4'
      · by_cases h3 : amount ≤ total
        · simp only [pickAtIndex, if_neg h1, if_neg h2, if_pos h3]
          exact inv
        · simp only [pickAtIndex, if_neg h1, if_neg h2, if_neg h3]
          have hmemu : u ∈ u :: rest := List.mem_cons_self u rest
          have hublock : u.block.isSome = true := by
            cases hb : u.block with
            | none => exact absurd (by simp [hb]) h2
            | some bl => simp
          have hutx : u.txIn = none := Option.not_isSome_iff_eq_none.mp h1
          have hne_rc : C.getChildKeysPub rK idx ≠ C.getChildKeysPub cK idx := hinj.rc idx idx
          refine ih (total + u.amount)
            (sel ++ [{ utxo := u, childIndex := idx, isReceive := u.address == C.getChildKeysPub rK idx }])
            (ins ++ [u.address]) ?_ hc1' hc2' ?_ hc4'
          · refine { ins_eq := ?_, good := ?_, bounded := ?_, nodup := ?_, total_eq := ?_ }
            · rw [inv.ins_eq, List.map_append]
              simp
            · intro s hs
              rcases List.mem_append.mp hs with hs | hs
              · exact inv.good s hs
              · simp only [List.mem_singleton] at hs
                subst hs
                refine ⟨hc1 u hmemu, hutx, hublock, ?_⟩
                rcases hc2 u hmemu with ha | ha
                · simp [ha]
                · rw [ha]
                  rw [show ((C.getChildKeysPub cK idx == C.getChildKeysPub rK idx) = false) from
                    beq_eq_false_iff_ne.mpr (Ne.symm hne_rc)]
                  simp
            · intro s hs
              rcases List.mem_append.mp hs with hs | hs
              · exact inv.bounded s hs
              · simp only [List.mem_singleton] at hs
                subst hs
                exact Nat.lt_succ_self idx
            · exact List.Nodup.append inv.nodup (List.nodup_singleton _)
                (List.disjoint_singleton.mpr (hc3 u hmemu))
            · rw [inv.total_eq, List.map_append, List.sum_append]
              simp
          · intro v hv
            rw [List.mem_append]
            rintro (hmem | hmem)
            · exact hc3 v (List.mem_cons_of_mem u hv) hmem
            · simp only [List.mem_singleton] at hmem
              have : u.address ∉ rest.map (fun w => w.address) :=
                (List.nodup_cons.mp (by simpa using hc4)).1
              exact this (hmem ▸ List.mem_map_of_mem (fun w => w.address) hv)

/-- The addresses of the (at most two) candidate records at one index are
distinct. -/
lemma cands_map_nodup (db : Db) (a1 a2 : String) (hne : a1 ≠ a2) :
    (((dbReadGetUtxo db a1).toList ++ (dbReadGetUtxo db a2).toList).map
      (fun u => u.address)).Nodup := by
  cases hr : dbReadGetUtxo db a1 with
  | none =>
    cases hc : dbReadGetUtxo db a2 with
    | none => simp
    | some v => simp
  | some u =>
    cases hc : dbReadGetUtxo db a2 with
    | none => simp
    | some v =>
      have hu := (dbRead_self db a1 u hr).1
      have hv := (dbRead_self db a2 v hc).1
      simp [Option.toList, hu, hv, hne]

/-- The coin-selection loop preserves the selection invariant up to some
final scan bound. -/
lemma selectLoop_inv (C : Crypto) (db : Db) (rK cK : String)
    (hinj : ChainsInjective C rK cK) (amount : Int) :
    ∀ fuel idx total sel ins T S I,
    SelInv C db rK cK idx total sel ins →
    selectLoop C db rK cK amount fuel idx total sel ins = some (T, S, I) →
    ∃ N, SelInv C db rK cK N T S I := by
  intro fuel
  induction fuel with
  | zero => intro idx total sel ins T S I inv h; simp [selectLoop] at h
  | succ m ih =>
    intro idx total sel ins T S I inv h
    simp only [selectLoop] at h
    by_cases h1 : amount ≤ total
    · rw [if_pos h1] at h
      cases h
      exact ⟨idx, inv⟩
    · rw [if_neg h1] at h
      by_cases h2 : (((dbReadGetUtxo db (C.getChildKeysPub rK idx)).toList ++
          (dbReadGetUtxo db (C.getChildKeysPub cK idx)).toList).isEmpty && (idx != 0)) = true
      · rw [if_pos h2] at h
        cases h
        exact ⟨idx, inv⟩
      · rw [if_neg h2] at h
        refine ih (idx + 1) _ _ _ T S I ?_ h
        refine pickAtIndex_inv C db rK cK hinj amount idx _ total sel ins
          (inv.mono (Nat.le_succ idx)) ?_ ?_ ?_
          (cands_map_nodup db _ _ (hinj.rc idx idx))
        · intro u hu
          rcases List.mem_append.mp hu with hu | hu
          · exact (mem_lookup_toList db _ u hu).1
          · exact (mem_lookup_toList db _ u hu).1
        · intro u hu
          rcases List.mem_append.mp hu with hu | hu
          · exact Or.inl (mem_lookup_toList db _ u hu).2
          · exact Or.inr (mem_lookup_toList db _ u hu).2
        · intro u hu
          rw [inv.ins_eq]
          intro hmem
          obtain ⟨s, hs, haddr⟩ := List.mem_map.mp hmem
          obtain ⟨-, -, -, hsaddr⟩ := inv.good s hs
          have hb := inv.bounded s hs
          have hua : u.address = C.getChildKeysPub rK idx ∨ u.address = C.getChildKeysPub cK idx := by
            rcases List.mem_append.mp hu with hu | hu
            · exact Or.inl (mem_lookup_toList db _ u hu).2
            · exact Or.inr (mem_lookup_toList db _ u hu).2
          rw [haddr] at hsaddr
          rcases hua with hua | hua <;> rw [hua] at hsaddr
          · cases hrec : s.isReceive with
            | true =>
              rw [hrec, if_pos rfl] at hsaddr
              exact absurd (hinj.rr idx s.childIndex hsaddr) (by omega)
            | false =>
              rw [hrec] at hsaddr
              simp only [Bool.false_eq_true, if_false] at hsaddr
              exact hinj.rc idx s.childIndex hsaddr
          · cases hrec : s.isReceive with
            | true =>
              rw [hrec, if_pos rfl] at hsaddr
              exact hinj.rc s.childIndex idx hsaddr.symm
            | false =>
              rw [hrec] at hsaddr
              simp only [Bool.false_eq_true, if_false] at hsaddr
              exact absurd (hinj.cc idx s.childIndex hsaddr) (by omega)

/-- The input loop succeeds when the inputs are duplicate-free and every
input looks up to an unspent UTXO whose address verifies the positionally
matched signature. -/
lemma checkInputs_ok_of (C : Crypto) (db : Db) (txHash : String) (allIns sigs : List String) :
    ∀ rem seen, rem.Nodup → (∀ a ∈ rem, a ∉ seen) →
    (∀ a ∈ rem, ∃ u, dbWriteGetUtxo db a = some u ∧
       C.verifySignature txHash u.address (sigs.getD (allIns.indexOf a) "") = true) →
    checkInputs C db txHash allIns sigs rem seen = .ok () := by
  intro rem
  induction rem with
  | nil => intro seen _ _ _; rfl
  | cons b rest ih =>
    intro seen hnd hseen hlk
    obtain ⟨u, hu, hv⟩ := hlk b (List.mem_cons_self b rest)
    simp only [checkInputs, if_neg (hseen b (List.mem_cons_self b rest)), hu]
    rw [hv, if_pos rfl]
    obtain ⟨hb, hrest⟩ := List.nodup_cons.mp hnd
    refine ih (b :: seen) hrest ?_ (fun a ha => hlk a (List.mem_cons_of_mem b ha))
    intro a ha
    simp only [List.mem_cons]
    rintro (rfl | hmem)
    · exact hb ha
    · exact hseen a (List.mem_cons_of_mem b ha) hmem

/-- `totalInput` over the selected addresses, with a generalized
accumulator. -/
lemma totalInput_fold (db : Db) :
    ∀ (sel : List SelUtxo) (acc : Int),
    (∀ s ∈ sel, dbWriteGetUtxo db s.utxo.address = some s.utxo) →
    (sel.map (fun s => s.utxo.address)).foldl (fun acc a =>
      match dbWriteGetUtxo db a with
      | some utxo => acc + utxo.amount
      | none => acc) acc = acc + (sel.map (fun s => s.utxo.amount)).sum := by
  intro sel
  induction sel with
  | nil => intro acc _; simp
  | cons s rest ih =>
    intro acc hlk
    simp only [List.map_cons, List.foldl_cons, hlk s (List.mem_cons_self s rest)]
    rw [ih (acc + s.utxo.amount) (fun t ht => hlk t (List.mem_cons_of_mem s ht))]
    rw [List.sum_cons, add_assoc]

/-- `totalInput` of the selected inputs equals the selection total. -/
lemma totalInput_sel (db : Db) (sel : List SelUtxo)
    (hlk : ∀ s ∈ sel, dbWriteGetUtxo db s.utxo.address = some s.utxo) :
    totalInput db (sel.map (fun s => s.utxo.address)) =
      (sel.map (fun s => s.utxo.amount)).sum := by
  rw [totalInput, totalInput_fold db sel 0 hlk, zero_add]

/-- Clearing the transaction pool does not change UTXO lookups. -/
lemma dbWrite_clearTxs (db : Db) (a : String) :
    dbWriteGetUtxo { db with txs := [] } a = dbWriteGetUtxo db a := rfl

/-- Clearing the transaction pool does not change input totals. -/
lemma totalInput_clearTxs (db : Db) (ins : List String) :
    totalInput { db with txs := [] } ins = totalInput db ins := rfl

/-- Core acceptance lemma: a transaction assembled by `buildSignedTx` from a
selection satisfying the invariant, with outputs passing the output checks
and totalling at most the selection total, is accepted by `addTransaction`
against the same store with an empty pool. -/
lemma addTransaction_accepts (C : Crypto) (db : Db) (rPriv cPriv rK cK : String)
    (hsigr : ∀ h i, C.verifySignature h (C.getChildKeysPub rK i)
      (C.signHash h (C.getChildKeysPriv rPriv i)) = true)
    (hsigc : ∀ h i, C.verifySignature h (C.getChildKeysPub cK i)
      (C.signHash h (C.getChildKeysPriv cPriv i)) = true)
    (sel : List SelUtxo) (ins : List String) (outs : List TxOut) (N : Nat) (total : Int)
    (inv : SelInv C db rK cK N total sel ins)
    (hout : checkOutputs outs [] = .ok ())
    (htot : totalOutput outs ≤ total) :
    addTransaction C { db with txs := [] } (buildSignedTx C rPriv cPriv ins outs sel) =
      .ok (applyTransaction { db with txs := [] } (buildSignedTx C rPriv cPriv ins outs sel)) := by
  have hlkW : ∀ s ∈ sel, dbWriteGetUtxo db s.utxo.address = some s.utxo := by
    intro s hs
    obtain ⟨hrd, htx, -, -⟩ := inv.good s hs
    exact dbWrite_of_read db _ _ hrd htx
  have hlen : ins.length = (signAll C rPriv cPriv (C.getTransactionHash ins outs []) sel).length := by
    rw [inv.ins_eq, signAll, List.length_map, List.length_map]
  have hci : checkInputs C { db with txs := [] } (C.getTransactionHash ins outs []) ins
      (signAll C rPriv cPriv (C.getTransactionHash ins outs []) sel) ins [] = .ok () := by
    refine checkInputs_ok_of C _ _ ins _ ins [] inv.nodup (by simp) ?_
    intro a ha
    have hk : ins.indexOf a < ins.length := List.indexOf_lt_length.mpr ha
    have hlensel : ins.length = sel.length := by rw [inv.ins_eq, List.length_map]
    have hksel : ins.indexOf a < sel.length := by omega
    have hgeta : ins.get ⟨ins.indexOf a, hk⟩ = a := List.indexOf_get hk
    have hmem : sel.get ⟨ins.indexOf a, hksel⟩ ∈ sel := List.get_mem sel _ _
    have haddr0 : ins.get ⟨ins.indexOf a, hk⟩ = (sel.get ⟨ins.indexOf a, hksel⟩).utxo.address := by
      have h1 := inv.ins_eq
      generalize hidx : ins.indexOf a = k at hk hksel ⊢
      subst h1
      simp [List.getElem_map]
    have haddr : (sel.get ⟨ins.indexOf a, hksel⟩).utxo.address = a := by
      rw [← haddr0]
      exact hgeta
    obtain ⟨-, -, -, hchain⟩ := inv.good _ hmem
    refine ⟨(sel.get ⟨ins.indexOf a, hksel⟩).utxo, ?_, ?_⟩
    · rw [dbWrite_clearTxs]
      conv_lhs => rw [← haddr]
      exact hlkW _ hmem
    · have hsig : (signAll C rPriv cPriv (C.getTransactionHash ins outs []) sel).getD
          (ins.indexOf a) "" =
          C.signHash (C.getTransactionHash ins outs [])
            (C.getChildKeysPriv
              (if (sel.get ⟨ins.indexOf a, hksel⟩).isReceive then rPriv else cPriv)
              (sel.get ⟨ins.indexOf a, hksel⟩).childIndex) := by
        rw [signAll, List.getD_eq_getElem _ _ (by rw [List.length_map]; exact hksel),
          List.getElem_map]
        rfl
      rw [hsig, hchain]
      cases hrec : (sel.get ⟨ins.indexOf a, hksel⟩).isReceive with
      | true => simp only [if_pos rfl]; exact hsigr _ _
      | false =>
        simp only [Bool.false_eq_true, if_false]
        exact hsigc _ _
  have htotIn : totalOutput outs ≤ totalInput { db with txs := [] } ins := by
    rw [totalInput_clearTxs, inv.ins_eq, totalInput_sel db sel hlkW, ← inv.total_eq]
    exact htot
  show addTransaction _ _ _ = _
  simp only [addTransaction, buildSignedTx]
  rw [if_neg (by simpa using hlen)]
  simp only [signAll] at hci ⊢
  rw [hci, hout, if_neg (not_lt.mpr htotIn)]

/-- C2 (amended with a strictly positive requested amount): a transaction
built by `createTransaction` — which succeeds exactly when the account's
confirmed unspent UTXOs cover the requested amount — is accepted by
`addTransaction` against the same store with an empty transaction pool,
under collision-free child-address derivation and a signature scheme in
which honestly produced signatures verify against the matching child public
key. -/
theorem roundtrip_accepted (C : Crypto) (db : Db) (mnemonic address : String)
    (account : Nat) (amount : Int) (fuel : Nat) (tx : Tx)
    (hamt : 0 < amount)
    (hinj : ChainsInjective C (C.getReceiveKeys mnemonic account).2
      (C.getChangeKeys mnemonic account).2)
    (hpc : ∀ i j, C.getChildKeysPub address i ≠
      C.getChildKeysPub (C.getChangeKeys mnemonic account).2 j)
    (hsigr : ∀ h i, C.verifySignature h
      (C.getChildKeysPub (C.getReceiveKeys mnemonic account).2 i)
      (C.signHash h (C.getChildKeysPriv (C.getReceiveKeys mnemonic account).1 i)) = true)
    (hsigc : ∀ h i, C.verifySignature h
      (C.getChildKeysPub (C.getChangeKeys mnemonic account).2 i)
      (C.signHash h (C.getChildKeysPriv (C.getChangeKeys mnemonic account).1 i)) = true)
    (hrun : createTransaction C db mnemonic account address amount fuel = some (.ok tx)) :
    addTransaction C { db with txs := [] } tx =
      .ok (applyTransaction { db with txs := [] } tx) := by
  have inv0 : SelInv C db (C.getReceiveKeys mnemonic account).2
      (C.getChangeKeys mnemonic account).2 0 0 [] [] :=
    { ins_eq := rfl, good := fun s hs => absurd hs (List.not_mem_nil s),
      bounded := fun s hs => absurd hs (List.not_mem_nil s),
      nodup := List.nodup_nil, total_eq := rfl }
  simp only [createTransaction] at hrun
  split at hrun
  · exact absurd hrun (by simp)
  next total selectedUtxos utxoIns hsel =>
    obtain ⟨N, inv⟩ := selectLoop_inv C db _ _ hinj amount fuel 0 0 [] []
      total selectedUtxos utxoIns inv0 hsel
    split at hrun
    · exact absurd hrun (by simp)
    next hge =>
      split at hrun
      · exact absurd hrun (by simp)
      next hcng =>
        split at hrun
        next hchange =>
          split at hrun
          · exact absurd hrun (by simp)
          next ca hca =>
            split at hrun
            · exact absurd hrun (by simp)
            next ra hra =>
              simp only [Option.some.injEq, Except.ok.injEq] at hrun
              subst hrun
              obtain ⟨-, i, -, hraEq, -⟩ :=
                firstUnusedAddress_spec C db address fuel 0 ra hra
              obtain ⟨-, j, -, hcaEq, -⟩ :=
                firstUnusedAddress_spec C db _ fuel 0 ca hca
              have hne : ca ≠ ra := by
                rw [hraEq, hcaEq]
                exact fun hq => hpc i j hq.symm
              refine addTransaction_accepts C db _ _ _ _ hsigr hsigc selectedUtxos utxoIns
                [{ address := ra, amount := amount },
                 { address := ca, amount := total - amount }] N total inv ?_ ?_
              · simp only [checkOutputs, List.not_mem_nil, if_neg, List.mem_singleton]
                rw [if_neg (by simp), if_neg (by omega), if_neg (by simpa using hne),
                  if_neg (by omega)]
              · simp only [totalOutput, List.foldl_cons, List.foldl_nil]
                omega
        next hchange =>
          split at hrun
          · exact absurd hrun (by simp)
          next ra hra =>
            simp only [Option.some.injEq, Except.ok.injEq] at hrun
            subst hrun
            refine addTransaction_accepts C db _ _ _ _ hsigr hsigc selectedUtxos utxoIns
              [{ address := ra, amount := amount }] N total inv ?_ ?_
            · simp only [checkOutputs]
              rw [if_neg (by simp), if_neg (by omega)]
            · simp only [totalOutput, List.foldl_cons, List.foldl_nil]
              omega

/-- Witness derivation is injective per parent key: the child index is the
number of appended `'x'` characters. -/
lemma cwChildPub_inj (k : String) : ∀ i j, cwChildPub k i = cwChildPub k j → i = j := by
  intro i j h
  have hd : k.data ++ List.replicate i 'x' = k.data ++ List.replicate j 'x' :=
    congrArg String.data h
  have hr := List.append_cancel_left hd
  have hlen := congrArg List.length hr
  simpa using hlen

/-- Witness chains of parents with distinct head characters are disjoint. -/
lemma cwChildPub_ne (c₁ c₂ : Char) (t₁ t₂ : List Char) (hne : c₁ ≠ c₂) :
    ∀ i j, cwChildPub ⟨c₁ :: t₁⟩ i ≠ cwChildPub ⟨c₂ :: t₂⟩ j := by
  intro i j h
  have hd : (c₁ :: t₁) ++ List.replicate i 'x' = (c₂ :: t₂) ++ List.replicate j 'x' :=
    congrArg String.data h
  simp only [List.cons_append, List.cons.injEq] at hd
  exact hne hd.1

/-- Witness for the amended C2: the concrete transaction built over `dbw`
(one confirmed UTXO of amount 5, transfer of 3) is accepted. -/
theorem roundtrip_accepted_witness :
    addTransaction cw { dbw with txs := [] } txw =
      .ok (applyTransaction { dbw with txs := [] } txw) :=
  roundtrip_accepted cw dbw "m" "p" 0 3 5 txw (by decide)
    ⟨cwChildPub_inj "r", cwChildPub_inj "c", cwChildPub_ne 'r' 'c' [] [] (by decide)⟩
    (cwChildPub_ne 'p' 'c' [] [] (by decide))
    (fun _ _ => rfl) (fun _ _ => rfl) rfl

/-- C2 counterexample: for a requested amount of 0 the coverage premise holds
trivially and `createTransaction` returns a transaction, but that transaction
carries a zero-amount output and `addTransaction` rejects it — the claim
fails without a positivity requirement on the amount. -/
theorem roundtrip_zero_amount_cex :
    createTransaction cw dbEmpty "m" 0 "p" 0 2 = some (.ok txZ)
    ∧ addTransaction cw { dbEmpty with txs := [] } txZ =
        .error "Invalid amount for address" :=
  ⟨rfl, rfl⟩
